import Mathlib

/-!
Verification of the fuzzy-matching core and history buffer of the Dotobot
repository (src/util.py), via a shallow embedding into Lean.

Modelling conventions:
* Python strings are Lean `String` (a structure holding a `List Char`).
  Character classes are modelled on the ASCII fragment, which is where all
  of the behaviours distinguished by the statements below live:
  `str.lower` is `Char.toLower` pointwise and the regex word class `\w`
  is letters, digits and the underscore.
* Python `raise ValueError(msg)` is `Except.error msg`; a function that can
  raise returns `Except String _`.
* `list.sort(key=...)` is a stable sort by a total preorder; any two stable
  sorts agree extensionally, so it is modelled by `List.insertionSort`
  (Mathlib), whose `orderedInsert` keeps earlier elements in front of
  later tied ones exactly as a stable sort does.
-/

namespace Dotobot

/-- Constant MAX_FUZZY_DISTANCE from src/util.py line 14. -/
def MAX_FUZZY_DISTANCE : Nat := 3

/-- Constant MAX_FUZZY_OVERLAP from src/util.py line 15. -/
def MAX_FUZZY_OVERLAP : Nat := 1

/-! ### History (src/util.py lines 21-57) -/

/-- The data of a `Summary` object: the context is reduced to the message id
that `History.search` compares against, plus the header and fields. -/
structure Summary where
  ctxId : Nat
  header : String
  fields : List (String × String)
deriving DecidableEq

/-- The state of a `History` object is its list of summaries. -/
def HistoryState := List Summary

/-- Embedding of `History.add`: append the summary, then trim the list to its
first 10 elements (`self.history[:10]`). -/
def History.add (h : List Summary) (s : Summary) : List Summary :=
  (h ++ [s]).take 10

/-! ### sanitize (src/util.py lines 196-199) -/

/-- The regex word class `\w` on the ASCII fragment: letters, digits and the
underscore. -/
def isWordChar (c : Char) : Bool :=
  c.isAlphanum || c = '_'

/-- Embedding of `re.sub(pattern, '', s)` for a character-class pattern:
every character matching the class is deleted. -/
def regexSubEmpty (matches_ : Char → Bool) (l : List Char) : List Char :=
  l.filter (fun c => !(matches_ c))

/-- Embedding of `sanitize`: lower-case the input, then delete every
character matching `[^\w ]` (not a word character and not a space). -/
def sanitize (s : String) : String :=
  ⟨regexSubEmpty (fun c => !(isWordChar c || c = ' ')) (s.data.map Char.toLower)⟩

/-- The normalization function as the specification words it (claim C4):
lower-case, then remove every character that is not a letter, a digit, or a
space.  Used only to compare the source behaviour against the spec. -/
def specSanitize (s : String) : String :=
  ⟨(s.data.map Char.toLower).filter (fun c => c.isAlphanum || c = ' ')⟩

/-! ### overlap (src/util.py lines 201-219)

The code keeps two rolling rows of a table whose cell (i, j) holds the
length of the longest common suffix of `a[:i]` and `b[:j]`, and the running
maximum `best` of all cells.  The embedding materialises each row: from the
row for `a[:i]` the row for `a[:i+1]` has cell j+1 equal to
`prev[j] + 1` when `a[i] == b[j]` and `0` otherwise, and cell 0 equal to 0. -/

/-- One inner loop of `overlap`: given character `c = a[i]` and the previous
row (cells 0..n for `a[:i]`), produce cells 1..n of the next row. -/
def overlapRow (c : Char) (bs : List Char) (prev : List Nat) : List Nat :=
  List.zipWith (fun b p => if c = b then p + 1 else 0) bs prev

/-- Fold of `max` over a list, mirroring the running `best` update. -/
def listMax (l : List Nat) : Nat :=
  l.foldr max 0

/-- The outer loop of `overlap`: consume the characters of `a`, carrying the
current row and the running best. -/
def overlapLoop (bs : List Char) : List Char → List Nat → Nat → Nat
  | [], _, best => best
  | c :: as_, prev, best =>
      overlapLoop bs as_ (0 :: overlapRow c bs prev)
        (max best (listMax (overlapRow c bs prev)))

/-- Embedding of `overlap`: raises (returns `.error`) when either string is
empty, otherwise runs the dynamic program. -/
def overlap (a b : String) : Except String Nat :=
  if a.length = 0 ∨ b.length = 0 then
    .error "Input strings must be of non-zero length"
  else
    .ok (overlapLoop b.data a.data (List.replicate (b.length + 1) 0) 0)

/-! ### distance (src/util.py lines 221-245)

The code keeps one row `prev` with `prev[j]` the edit distance between
`a[:i]` and `b[:j]`, and rebuilds `curr` left to right: `curr[0] = i+1` and
`curr[j+1] = min(prev[j+1]+1, curr[j]+1, prev[j] + (a[i] != b[j]))`. -/

/-- The inner loop of `distance`: given `c = a[i]`, the remaining characters
of `b`, the cell just written (`curr[j]`) and the suffix of the previous row
from position j, produce cells j+1..n of the current row. -/
def distStep (c : Char) : List Char → Nat → List Nat → List Nat
  | b :: bs, q0, p0 :: p1 :: ps =>
      let q1 := min (p1 + 1) (min (q0 + 1) (p0 + (if c = b then 0 else 1)))
      q1 :: distStep c bs q1 (p1 :: ps)
  | _, _, _ => []

/-- The outer loop of `distance`: consume the characters of `a`, carrying
the row index and the previous row. -/
def distLoop (bs : List Char) : List Char → Nat → List Nat → List Nat
  | [], _, prev => prev
  | c :: as_, i, prev => distLoop bs as_ (i + 1) ((i + 1) :: distStep c bs (i + 1) prev)

/-- Embedding of `distance`: raises (returns `.error`) when either string is
empty, otherwise runs the dynamic program and returns `prev[n]`. -/
def distance (a b : String) : Except String Nat :=
  if a.length = 0 ∨ b.length = 0 then
    .error "Input strings must be of non-zero length"
  else
    .ok ((distLoop b.data a.data 0 (List.range (b.length + 1))).getD b.length 0)

/-! ### fuzzy_search (src/util.py lines 195-269) -/

/-- One result dictionary of `fuzzy_search`. -/
structure Entry where
  name : String
  sanitized : String
  overlap : Nat
  distance : Nat
deriving DecidableEq

/-- Build the result record for one option: the label is sanitized, the raw
query is scored against the sanitized label (first overlap, then distance,
matching the order in which the code can raise). -/
def scoreEntry (query : String) (opt : String) : Except String Entry :=
  match overlap query (sanitize opt) with
  | .error e => .error e
  | .ok ov =>
    match distance query (sanitize opt) with
    | .error e => .error e
    | .ok d => .ok ⟨opt, sanitize opt, ov, d⟩

/-- The scoring loop of `fuzzy_search`: build the record of every option in
order, propagating the first raised error. -/
def scoreAll (query : String) : List String → Except String (List Entry)
  | [] => .ok []
  | o :: os =>
    match scoreEntry query o with
    | .error e => .error e
    | .ok r =>
      match scoreAll query os with
      | .error e => .error e
      | .ok rs => .ok (r :: rs)

/-- The pair of stable sorts from the code: first by distance ascending,
then by overlap descending (`reverse=True`). -/
def rank (l : List Entry) : List Entry :=
  List.insertionSort (fun p q => q.overlap ≤ p.overlap)
    (List.insertionSort (fun p q => p.distance ≤ q.distance) l)

/-- The conclusiveness decision of the code: with at least two ranked
results, conclusive iff `results[0].overlap > results[1].overlap + 1` or
`results[0].distance > results[1].distance + 3`. -/
def conclusiveOf : List Entry → Bool
  | r0 :: r1 :: _ =>
      decide (r1.overlap + MAX_FUZZY_OVERLAP < r0.overlap) ||
      decide (r1.distance + MAX_FUZZY_DISTANCE < r0.distance)
  | _ => true

/-- Embedding of `fuzzy_search`. -/
def fuzzy_search (options : List String) (query : String) :
    Except String (Bool × List Entry) :=
  match scoreAll query options with
  | .error e => .error e
  | .ok results => .ok (conclusiveOf (rank results), rank results)

/-- Tag each entry with its position in the scored list.  The sort keys
never inspect the tag, so the tagged pipeline `rankIdx` projects onto the
pipeline of `fuzzy_search` while recording where each entry came from. -/
def withIdx : Nat → List Entry → List (Nat × Entry)
  | _, [] => []
  | n, e :: l => (n, e) :: withIdx (n + 1) l

/-- The pair of stable sorts of `fuzzy_search`, run on position-tagged
entries. -/
def rankIdx (l : List (Nat × Entry)) : List (Nat × Entry) :=
  List.insertionSort (fun x y => y.2.overlap ≤ x.2.overlap)
    (List.insertionSort (fun x y => x.2.distance ≤ y.2.distance) l)

/-- The ranking order of the specification on position-tagged entries:
overlap descending first, then distance ascending, and on full ties the
original position order. -/
def RankedOrder (x y : Nat × Entry) : Prop :=
  y.2.overlap ≤ x.2.overlap ∧ (x.2.overlap ≤ y.2.overlap →
    (x.2.distance ≤ y.2.distance ∧ (y.2.distance ≤ x.2.distance → x.1 < y.1)))

/-! ### Reference definitions for the scoring claims

`lev` is the textbook Levenshtein recursion and `Edits` the relation
"there is an edit script of n single-character insertions, deletions and
substitutions transforming the first list into the second"; together they
give the meaning the specification assigns to `distance`.  `levRowAux` is
the mathematical description of the rows the dynamic program carries:
processing characters of `a` front to back builds rows about reversed
prefixes, which is the front-recursive `lev` applied to reversed slices. -/

/-- Textbook Levenshtein recursion (unit cost insert, delete,
substitute). -/
def lev : List Char → List Char → Nat
  | [], ys => ys.length
  | x :: xs, [] => (x :: xs).length
  | x :: xs, y :: ys =>
      if x = y then lev xs ys
      else 1 + min (lev xs (y :: ys)) (min (lev (x :: xs) ys) (lev xs ys))
termination_by xs ys => xs.length + ys.length
decreasing_by all_goals (simp; try omega)

/-- `Edits xs ys n` holds when some script of `n` single-character
insertions, deletions and substitutions transforms `xs` into `ys`. -/
inductive Edits : List Char → List Char → Nat → Prop where
  | nil : Edits [] [] 0
  | ins {xs ys n} (y : Char) : Edits xs ys n → Edits xs (y :: ys) (n + 1)
  | del {xs ys n} (x : Char) : Edits xs ys n → Edits (x :: xs) ys (n + 1)
  | sub {xs ys n} {x y : Char} : x ≠ y → Edits xs ys n →
      Edits (x :: xs) (y :: ys) (n + 1)
  | keep {xs ys n} (x : Char) : Edits xs ys n → Edits (x :: xs) (x :: ys) n

/-- The row of Levenshtein values the distance loop maintains: entry j is
`lev u (rev (bs.take j) ++ w)`, produced by walking `bs` and pushing its
characters onto the accumulator `w`. -/
def levRowAux (u : List Char) : List Char → List Char → List Nat
  | w, [] => [lev u w]
  | w, b :: bs => lev u w :: levRowAux u (b :: w) bs

/-- Length of the longest common prefix of two lists of characters. -/
def lcp : List Char → List Char → Nat
  | x :: xs, y :: ys => if x = y then lcp xs ys + 1 else 0
  | _, _ => 0

/-- `Substr s l` holds when `s` occurs as a contiguous substring of `l`. -/
def Substr (s l : List Char) : Prop :=
  ∃ p q, l = p ++ (s ++ q)

/-- The row of suffix-overlap values the overlap table maintains: entry j is
the longest common prefix of `u` and `rev (bs.take j) ++ w`, that is, the
longest common suffix of the consumed part of `a` and `bs.take j`. -/
def lcpRow (u : List Char) : List Char → List Char → List Nat
  | w, [] => [lcp u w]
  | w, b :: bs => lcp u w :: lcpRow u (b :: w) bs

/-- Value of the running best of `overlap` over the remaining rows, with
`u` the reversed consumed part of `a`. -/
def bestOver (bs : List Char) : List Char → List Char → Nat
  | _, [] => 0
  | u, c :: as_ =>
      max (listMax ((lcpRow (c :: u) [] bs).tail)) (bestOver bs (c :: u) as_)

/-! ### Easy claims -/

/-- C10: starting from the empty history, any sequence of `History.add`
calls leaves at most 10 stored summaries. -/
theorem history_add_bounded (adds : List Summary) :
    (adds.foldl History.add []).length ≤ 10 := by
  have key : ∀ (l : List Summary) (h : List Summary),
      (l.foldl History.add h).length ≤ max h.length 10 := by
    intro l
    induction l with
    | nil => intro h; exact Nat.le_max_left _ _
    | cons a l ih =>
        intro h
        have h1 : (List.foldl History.add (History.add h a) l).length ≤
            max (History.add h a).length 10 := ih (History.add h a)
        have h2 : (History.add h a).length ≤ 10 := by
          simp [History.add]
        calc (List.foldl History.add h (a :: l)).length
            = (List.foldl History.add (History.add h a) l).length := rfl
          _ ≤ max (History.add h a).length 10 := h1
          _ ≤ max 10 10 := max_le_max h2 (Nat.le_refl 10)
          _ ≤ max h.length 10 := by simp
  have := key adds []
  simpa using this

/-- C8: searching an empty candidate list returns an empty result list with
conclusive true, for every query, and raises no error. -/
theorem fuzzy_search_empty_options (query : String) :
    fuzzy_search [] query = .ok (true, []) := rfl

/-- C3 counterexample: on an empty first argument the code raises a
ValueError instead of returning the values the claim specifies
(overlap 0, distance 1 against the string a). -/
theorem empty_input_raises_cex :
    overlap "" "a" = .error "Input strings must be of non-zero length" ∧
    distance "" "a" = .error "Input strings must be of non-zero length" ∧
    overlap "" "a" ≠ .ok 0 ∧ distance "" "a" ≠ .ok 1 := by
  refine ⟨rfl, rfl, ?_, ?_⟩
  · intro h
    rw [show overlap "" "a" = .error "Input strings must be of non-zero length" from rfl] at h
    exact Except.noConfusion h
  · intro h
    rw [show distance "" "a" = .error "Input strings must be of non-zero length" from rfl] at h
    exact Except.noConfusion h

/-- C3 amended: whenever either argument is the empty string, `overlap` and
`distance` raise `ValueError('Input strings must be of non-zero length')`;
an empty input is rejected, not scored. -/
theorem overlap_distance_empty_error (s : String) :
    overlap "" s = .error "Input strings must be of non-zero length" ∧
    overlap s "" = .error "Input strings must be of non-zero length" ∧
    distance "" s = .error "Input strings must be of non-zero length" ∧
    distance s "" = .error "Input strings must be of non-zero length" := by
  have h : ("" : String).length = 0 := rfl
  refine ⟨?_, ?_, ?_, ?_⟩
  · unfold overlap; rw [if_pos (Or.inl h)]
  · unfold overlap; rw [if_pos (Or.inr h)]
  · unfold distance; rw [if_pos (Or.inl h)]
  · unfold distance; rw [if_pos (Or.inr h)]

/-- C4 counterexample: the code keeps the underscore (the regex word class
is letters, digits and underscore), so `sanitize` disagrees with the
letters/digits/spaces-only projection of the claim on the input made of one
underscore. -/
theorem sanitize_underscore_cex :
    sanitize "_" = "_" ∧ specSanitize "_" = "" ∧
    sanitize "_" ≠ specSanitize "_" ∧
    ¬(('_').isAlphanum = true ∨ '_' = ' ') := by
  refine ⟨rfl, rfl, ?_, by decide⟩
  intro h
  have : ("_" : String) = "" := by
    calc ("_" : String) = sanitize "_" := rfl
      _ = specSanitize "_" := h
      _ = "" := rfl
  exact absurd (congrArg String.data this) (by decide)

/-- C4 amended: `sanitize` lower-cases its input and removes every character
that is not a word character (letter, digit or underscore) and not a space;
every character of the output is a letter, a digit, an underscore or a
space, and sanitizing the empty string gives the empty string. -/
theorem sanitize_characterization (x : String) :
    (sanitize x).data = (x.data.map Char.toLower).filter
      (fun c => c.isAlphanum || c = '_' || c = ' ') ∧
    (∀ c ∈ (sanitize x).data, c.isAlphanum || c = '_' || c = ' ') ∧
    sanitize "" = "" := by
  refine ⟨?_, ?_, rfl⟩
  · simp only [sanitize, regexSubEmpty, isWordChar]
    congr 1
    funext c
    cases hA : c.isAlphanum <;> cases hU : decide (c = '_') <;>
      cases hS : decide (c = ' ') <;> simp [hA, hU, hS]
  · intro c hc
    simp only [sanitize, regexSubEmpty, isWordChar, List.mem_filter] at hc
    have h2 := hc.2
    cases hA : c.isAlphanum <;> cases hU : decide (c = '_') <;>
      cases hS : decide (c = ' ') <;> simp_all

/-- C1, evaluation at the failing input: for options abc and abcdefgh with
query abc, the ranked output puts abc first (overlap 3, distance 0) and
abcdefgh second (overlap 3, distance 5); the runner-up trails the winner by
5 > 3 on distance, so the claim (and the spec) say conclusive, but the code
compares in the wrong direction and returns inconclusive. -/
theorem conclusive_margin_eval :
    fuzzy_search ["abc", "abcdefgh"] "abc" =
      .ok (false, [⟨"abc", "abc", 3, 0⟩, ⟨"abcdefgh", "abcdefgh", 3, 5⟩]) ∧
    (5 : Nat) - 0 > MAX_FUZZY_DISTANCE := by
  exact ⟨rfl, by decide⟩

/-- C2 counterexample: the query is not sanitized, so the scores for the
query A differ from the scores for sanitize(A) = a against the single
candidate a: the raw query A has overlap 0 and distance 1, the sanitized
query has overlap 1 and distance 0. -/
theorem query_not_sanitized_cex :
    sanitize "A" = "a" ∧
    fuzzy_search ["a"] "A" = .ok (true, [⟨"a", "a", 0, 1⟩]) ∧
    fuzzy_search ["a"] "a" = .ok (true, [⟨"a", "a", 1, 0⟩]) := by
  exact ⟨rfl, rfl, rfl⟩

/-! ### The Levenshtein development (claims C7 and C9) -/

theorem lev_nil_left (ys : List Char) : lev [] ys = ys.length := by
  simp [lev]

theorem lev_nil_right (xs : List Char) : lev xs [] = xs.length := by
  cases xs <;> simp [lev]

theorem lev_cons_cons (x y : Char) (xs ys : List Char) :
    lev (x :: xs) (y :: ys) =
      if x = y then lev xs ys
      else 1 + min (lev xs (y :: ys)) (min (lev (x :: xs) ys) (lev xs ys)) := by
  simp [lev]

/-- Adding or removing one character on either side changes the Levenshtein
value by at most one; the four bounds are proved together by strong
induction on the total length. -/
theorem lev_bounds : ∀ (N : Nat) (xs ys : List Char), xs.length + ys.length ≤ N →
    (∀ x, lev (x :: xs) ys ≤ lev xs ys + 1) ∧
    (∀ y, lev xs (y :: ys) ≤ lev xs ys + 1) ∧
    (∀ x, lev xs ys ≤ lev (x :: xs) ys + 1) ∧
    (∀ y, lev xs ys ≤ lev xs (y :: ys) + 1) := by
  intro N
  induction N with
  | zero =>
      intro xs ys h
      have hxs : xs = [] := List.length_eq_zero.mp (by omega)
      have hys : ys = [] := List.length_eq_zero.mp (by omega)
      subst hxs; subst hys
      refine ⟨?_, ?_, ?_, ?_⟩ <;> intro z <;>
        simp [lev_nil_left, lev_nil_right]
  | succ N ih =>
      intro xs ys h
      refine ⟨?_, ?_, ?_, ?_⟩
      · intro x
        cases ys with
        | nil => simp [lev_nil_right]
        | cons y ys =>
            rw [lev_cons_cons]
            by_cases hxy : x = y
            · subst hxy
              rw [if_pos rfl]
              exact (ih xs ys (by simp at h ⊢; omega)).2.2.2 x
            · rw [if_neg hxy]
              omega
      · intro y
        cases xs with
        | nil => simp [lev_nil_left]
        | cons x xs =>
            rw [lev_cons_cons]
            by_cases hxy : x = y
            · subst hxy
              rw [if_pos rfl]
              exact (ih xs ys (by simp at h ⊢; omega)).2.2.1 x
            · rw [if_neg hxy]
              omega
      · intro x
        cases ys with
        | nil => simp [lev_nil_right]; omega
        | cons y ys =>
            rw [lev_cons_cons]
            by_cases hxy : x = y
            · subst hxy
              rw [if_pos rfl]
              exact (ih xs ys (by simp at h ⊢; omega)).2.1 x
            · rw [if_neg hxy]
              have hb := (ih xs ys (by simp at h ⊢; omega)).2.1 y
              have hc := (ih xs ys (by simp at h ⊢; omega)).2.2.1 x
              omega
      · intro y
        cases xs with
        | nil => simp [lev_nil_left]; omega
        | cons x xs =>
            rw [lev_cons_cons]
            by_cases hxy : x = y
            · subst hxy
              rw [if_pos rfl]
              exact (ih xs ys (by simp at h ⊢; omega)).1 x
            · rw [if_neg hxy]
              have ha := (ih xs ys (by simp at h ⊢; omega)).1 x
              have hd := (ih xs ys (by simp at h ⊢; omega)).2.2.2 y
              omega

theorem lev_del_le (x : Char) (xs ys : List Char) :
    lev (x :: xs) ys ≤ lev xs ys + 1 :=
  (lev_bounds (xs.length + ys.length) xs ys le_rfl).1 x

theorem lev_ins_le (y : Char) (xs ys : List Char) :
    lev xs (y :: ys) ≤ lev xs ys + 1 :=
  (lev_bounds (xs.length + ys.length) xs ys le_rfl).2.1 y

theorem lev_le_del (x : Char) (xs ys : List Char) :
    lev xs ys ≤ lev (x :: xs) ys + 1 :=
  (lev_bounds (xs.length + ys.length) xs ys le_rfl).2.2.1 x

theorem lev_le_ins (y : Char) (xs ys : List Char) :
    lev xs ys ≤ lev xs (y :: ys) + 1 :=
  (lev_bounds (xs.length + ys.length) xs ys le_rfl).2.2.2 y

theorem edits_nil_left : ∀ ys : List Char, Edits [] ys ys.length
  | [] => .nil
  | y :: ys => by simpa using Edits.ins y (edits_nil_left ys)

theorem edits_nil_right : ∀ xs : List Char, Edits xs [] xs.length
  | [] => .nil
  | x :: xs => by simpa using Edits.del x (edits_nil_right xs)

/-- There is an edit script whose length is the Levenshtein value. -/
theorem edits_lev : ∀ (N : Nat) (xs ys : List Char), xs.length + ys.length ≤ N →
    Edits xs ys (lev xs ys) := by
  intro N
  induction N with
  | zero =>
      intro xs ys h
      have hxs : xs = [] := List.length_eq_zero.mp (by omega)
      have hys : ys = [] := List.length_eq_zero.mp (by omega)
      subst hxs; subst hys
      rw [lev_nil_left]
      exact .nil
  | succ N ih =>
      intro xs ys h
      cases xs with
      | nil => rw [lev_nil_left]; exact edits_nil_left ys
      | cons x xs =>
          cases ys with
          | nil => rw [lev_nil_right]; exact edits_nil_right (x :: xs)
          | cons y ys =>
              rw [lev_cons_cons]
              by_cases hxy : x = y
              · subst hxy
                rw [if_pos rfl]
                exact Edits.keep x (ih xs ys (by simp at h ⊢; omega))
              · rw [if_neg hxy]
                rcases Nat.le_total (lev xs (y :: ys))
                    (min (lev (x :: xs) ys) (lev xs ys)) with h1 | h1
                · rw [Nat.min_eq_left h1, Nat.add_comm]
                  exact Edits.del x (ih xs (y :: ys) (by simp at h ⊢; omega))
                · rw [Nat.min_eq_right h1]
                  rcases Nat.le_total (lev (x :: xs) ys) (lev xs ys) with h2 | h2
                  · rw [Nat.min_eq_left h2, Nat.add_comm]
                    exact Edits.ins y (ih (x :: xs) ys (by simp at h ⊢; omega))
                  · rw [Nat.min_eq_right h2, Nat.add_comm]
                    exact Edits.sub hxy (ih xs ys (by simp at h ⊢; omega))

/-- The Levenshtein value is a lower bound on every edit script. -/
theorem lev_le_of_edits : ∀ {xs ys : List Char} {n : Nat},
    Edits xs ys n → lev xs ys ≤ n := by
  intro xs ys n h
  induction h with
  | nil => rw [lev_nil_left]; exact Nat.le_refl 0
  | ins y _ ih =>
      exact le_trans (lev_ins_le y _ _) (by omega)
  | del x _ ih =>
      exact le_trans (lev_del_le x _ _) (by omega)
  | sub hxy _ ih =>
      rw [lev_cons_cons, if_neg hxy]
      omega
  | keep x _ ih =>
      rw [lev_cons_cons, if_pos rfl]
      exact ih

theorem lev_symm : ∀ (N : Nat) (xs ys : List Char), xs.length + ys.length ≤ N →
    lev xs ys = lev ys xs := by
  intro N
  induction N with
  | zero =>
      intro xs ys h
      have hxs : xs = [] := List.length_eq_zero.mp (by omega)
      have hys : ys = [] := List.length_eq_zero.mp (by omega)
      subst hxs; subst hys; rfl
  | succ N ih =>
      intro xs ys h
      cases xs with
      | nil => rw [lev_nil_left, lev_nil_right]
      | cons x xs =>
          cases ys with
          | nil => rw [lev_nil_left, lev_nil_right]
          | cons y ys =>
              rw [lev_cons_cons, lev_cons_cons]
              by_cases hxy : x = y
              · subst hxy
                rw [if_pos rfl, if_pos rfl]
                exact ih xs ys (by simp at h ⊢; omega)
              · rw [if_neg hxy, if_neg (fun hyx => hxy hyx.symm)]
                have h1 : lev xs (y :: ys) = lev (y :: ys) xs :=
                  ih xs (y :: ys) (by simp at h ⊢; omega)
                have h2 : lev (x :: xs) ys = lev ys (x :: xs) :=
                  ih (x :: xs) ys (by simp at h ⊢; omega)
                have h3 : lev xs ys = lev ys xs :=
                  ih xs ys (by simp at h ⊢; omega)
                omega

/-! Edit scripts can be replayed at the back of the lists, hence reversed. -/

theorem Edits.snoc_ins (y : Char) : ∀ {xs ys : List Char} {n : Nat},
    Edits xs ys n → Edits xs (ys ++ [y]) (n + 1) := by
  intro xs ys n h
  induction h with
  | nil => exact Edits.ins y .nil
  | ins y2 _ ih => exact Edits.ins y2 ih
  | del x2 _ ih => exact Edits.del x2 ih
  | sub hxy _ ih => exact Edits.sub hxy ih
  | keep x2 _ ih => exact Edits.keep x2 ih

theorem Edits.snoc_del (x : Char) : ∀ {xs ys : List Char} {n : Nat},
    Edits xs ys n → Edits (xs ++ [x]) ys (n + 1) := by
  intro xs ys n h
  induction h with
  | nil => exact Edits.del x .nil
  | ins y2 _ ih => exact Edits.ins y2 ih
  | del x2 _ ih => exact Edits.del x2 ih
  | sub hxy _ ih => exact Edits.sub hxy ih
  | keep x2 _ ih => exact Edits.keep x2 ih

theorem Edits.snoc_sub {x y : Char} (hxy : x ≠ y) : ∀ {xs ys : List Char} {n : Nat},
    Edits xs ys n → Edits (xs ++ [x]) (ys ++ [y]) (n + 1) := by
  intro xs ys n h
  induction h with
  | nil => exact Edits.sub hxy .nil
  | ins y2 _ ih => exact Edits.ins y2 ih
  | del x2 _ ih => exact Edits.del x2 ih
  | sub hab _ ih => exact Edits.sub hab ih
  | keep x2 _ ih => exact Edits.keep x2 ih

theorem Edits.snoc_keep (x : Char) : ∀ {xs ys : List Char} {n : Nat},
    Edits xs ys n → Edits (xs ++ [x]) (ys ++ [x]) n := by
  intro xs ys n h
  induction h with
  | nil => exact Edits.keep x .nil
  | ins y2 _ ih => exact Edits.ins y2 ih
  | del x2 _ ih => exact Edits.del x2 ih
  | sub hab _ ih => exact Edits.sub hab ih
  | keep x2 _ ih => exact Edits.keep x2 ih

theorem Edits.rev : ∀ {xs ys : List Char} {n : Nat},
    Edits xs ys n → Edits xs.reverse ys.reverse n := by
  intro xs ys n h
  induction h with
  | nil => exact .nil
  | ins y _ ih => rw [List.reverse_cons]; exact Edits.snoc_ins y ih
  | del x _ ih => rw [List.reverse_cons]; exact Edits.snoc_del x ih
  | sub hxy _ ih =>
      rw [List.reverse_cons, List.reverse_cons]
      exact Edits.snoc_sub hxy ih
  | keep x _ ih =>
      rw [List.reverse_cons, List.reverse_cons]
      exact Edits.snoc_keep x ih

/-! Correctness of the dynamic program in `distance`. -/

/-- The cell recurrence of the distance table, with the diagonal move taken
from the front-recursive `lev` on reversed slices. -/
theorem lev_cell (c b : Char) (u w : List Char) :
    lev (c :: u) (b :: w) =
      min (lev u (b :: w) + 1)
        (min (lev (c :: u) w + 1) (lev u w + if c = b then 0 else 1)) := by
  rw [lev_cons_cons]
  by_cases hcb : c = b
  · rw [if_pos hcb, if_pos hcb]
    have h1 := lev_le_ins b u w
    have h2 := lev_le_del c u w
    subst hcb
    omega
  · rw [if_neg hcb, if_neg hcb]
    omega

theorem levRowAux_head (u : List Char) :
    ∀ (bs w : List Char), levRowAux u w bs = lev u w :: (levRowAux u w bs).tail := by
  intro bs w
  cases bs <;> simp [levRowAux]

/-- The inner loop of `distance` maps the row for `u` to the row for
`c :: u`. -/
theorem distStep_row (c : Char) (u : List Char) :
    ∀ (bs w : List Char),
      lev (c :: u) w :: distStep c bs (lev (c :: u) w) (levRowAux u w bs) =
        levRowAux (c :: u) w bs := by
  intro bs
  induction bs with
  | nil => intro w; simp [levRowAux, distStep]
  | cons b bs ih =>
      intro w
      rw [show levRowAux u w (b :: bs) = lev u w :: levRowAux u (b :: w) bs from rfl]
      rw [levRowAux_head u bs (b :: w)]
      rw [show distStep c (b :: bs) (lev (c :: u) w)
            (lev u w :: lev u (b :: w) :: (levRowAux u (b :: w) bs).tail) =
          (min (lev u (b :: w) + 1)
            (min (lev (c :: u) w + 1) (lev u w + if c = b then 0 else 1))) ::
          distStep c bs
            (min (lev u (b :: w) + 1)
              (min (lev (c :: u) w + 1) (lev u w + if c = b then 0 else 1)))
            (lev u (b :: w) :: (levRowAux u (b :: w) bs).tail) from rfl]
      rw [← lev_cell c b u w]
      rw [← levRowAux_head u bs (b :: w)]
      rw [show levRowAux (c :: u) w (b :: bs) =
            lev (c :: u) w :: levRowAux (c :: u) (b :: w) bs from rfl]
      exact congrArg (lev (c :: u) w :: ·) (ih (b :: w))

/-- The outer loop of `distance` computes successive rows. -/
theorem distLoop_rows (bs : List Char) :
    ∀ (as_ u : List Char),
      distLoop bs as_ u.length (levRowAux u [] bs) =
        levRowAux (as_.reverseAux u) [] bs := by
  intro as_
  induction as_ with
  | nil => intro u; rfl
  | cons c as_ ih =>
      intro u
      have hlen : u.length + 1 = lev (c :: u) [] := by
        rw [lev_nil_right]; rfl
      have hrow : (u.length + 1) :: distStep c bs (u.length + 1) (levRowAux u [] bs) =
          levRowAux (c :: u) [] bs := by
        rw [hlen]
        exact distStep_row c u bs []
      rw [show distLoop bs (c :: as_) u.length (levRowAux u [] bs) =
            distLoop bs as_ (u.length + 1)
              ((u.length + 1) :: distStep c bs (u.length + 1) (levRowAux u [] bs))
          from rfl]
      rw [hrow]
      exact ih (c :: u)

theorem range_map_shift (k n : Nat) :
    (List.range (n + 1)).map (fun j => k + j) =
      k :: (List.range n).map (fun j => (k + 1) + j) := by
  rw [List.range_succ_eq_map, List.map_cons, List.map_map]
  refine congrArg₂ (· :: ·) rfl (List.map_congr_left ?_)
  intro j _
  show k + (j + 1) = (k + 1) + j
  omega

/-- The initial row `[0, 1, ..., n]` is the row for the empty consumed
part. -/
theorem levRowAux_initial :
    ∀ (bs w : List Char), levRowAux [] w bs =
      (List.range (bs.length + 1)).map (fun j => w.length + j) := by
  intro bs
  induction bs with
  | nil => intro w; simp [levRowAux, lev_nil_left, List.range_succ]
  | cons b bs ih =>
      intro w
      rw [show levRowAux [] w (b :: bs) = lev [] w :: levRowAux [] (b :: w) bs from rfl]
      rw [lev_nil_left, ih (b :: w)]
      rw [show (b :: bs).length + 1 = (bs.length + 1) + 1 from rfl]
      rw [range_map_shift w.length (bs.length + 1)]
      rfl

theorem range_eq_levRowAux (bs : List Char) :
    List.range (bs.length + 1) = levRowAux [] [] bs := by
  rw [levRowAux_initial bs []]
  simp

/-- Reading cell n of the final row gives the Levenshtein value of the
reversed inputs. -/
theorem levRowAux_getD (u : List Char) :
    ∀ (bs w : List Char),
      (levRowAux u w bs).getD bs.length 0 = lev u (bs.reverse ++ w) := by
  intro bs
  induction bs with
  | nil => intro w; simp [levRowAux]
  | cons b bs ih =>
      intro w
      rw [show levRowAux u w (b :: bs) = lev u w :: levRowAux u (b :: w) bs from rfl]
      rw [show (b :: bs).length = bs.length + 1 from rfl]
      rw [List.getD_cons_succ]
      rw [ih (b :: w)]
      congr 1
      simp

/-- The code of `distance`, on non-empty inputs, returns the Levenshtein
value of the reversed strings (which below is shown to equal the
Levenshtein value of the strings themselves). -/
theorem distance_eq_lev (a b : String) (ha : a.length ≠ 0) (hb : b.length ≠ 0) :
    distance a b = .ok (lev a.data.reverse b.data.reverse) := by
  unfold distance
  rw [if_neg (by push_neg; exact ⟨ha, hb⟩)]
  congr 1
  have hblen : b.length = b.data.length := rfl
  rw [hblen, range_eq_levRowAux b.data]
  rw [show distLoop b.data a.data 0 (levRowAux [] [] b.data) =
        levRowAux (a.data.reverseAux []) [] b.data from distLoop_rows b.data a.data []]
  rw [show a.data.reverseAux [] = a.data.reverse from rfl]
  rw [levRowAux_getD a.data.reverse b.data []]
  rw [List.append_nil]

/-- C7: on non-empty strings, `distance` returns the Levenshtein edit
distance: the minimum number of single-character insertions, deletions and
substitutions transforming the first string into the second. -/
theorem distance_is_levenshtein (a b : String)
    (ha : a.length ≠ 0) (hb : b.length ≠ 0) :
    ∃ n, distance a b = .ok n ∧ Edits a.data b.data n ∧
      ∀ m, Edits a.data b.data m → n ≤ m := by
  refine ⟨lev a.data.reverse b.data.reverse, distance_eq_lev a b ha hb, ?_, ?_⟩
  · have h1 : Edits a.data.reverse b.data.reverse
        (lev a.data.reverse b.data.reverse) :=
      edits_lev _ _ _ le_rfl
    have h2 := h1.rev
    simpa using h2
  · intro m hm
    have h1 := hm.rev
    exact lev_le_of_edits h1

/-- C7 witness: the concrete pair ab, b has distance 1, realised by one
deletion and not beatable by any shorter script. -/
theorem distance_is_levenshtein_witness :
    ∃ n, distance "ab" "b" = .ok n ∧ Edits ("ab").data ("b").data n ∧
      ∀ m, Edits ("ab").data ("b").data m → n ≤ m :=
  distance_is_levenshtein "ab" "b" (by decide) (by decide)

/-- C9: `distance` is symmetric in its two arguments (both when it scores
and when it raises, since the emptiness test is symmetric). -/
theorem distance_symm (a b : String) : distance a b = distance b a := by
  by_cases h : a.length = 0 ∨ b.length = 0
  · unfold distance
    rw [if_pos h, if_pos h.symm]
  · push_neg at h
    rw [distance_eq_lev a b h.1 h.2, distance_eq_lev b a h.2 h.1]
    exact congrArg Except.ok
      (lev_symm (a.data.reverse.length + b.data.reverse.length) _ _ le_rfl)

/-! ### The longest-common-substring development (claim C6) -/

theorem lcp_nil_left (ys : List Char) : lcp [] ys = 0 := by
  cases ys <;> rfl

theorem lcp_nil_right (xs : List Char) : lcp xs [] = 0 := by
  cases xs <;> rfl

theorem lcp_cons_cons (x y : Char) (xs ys : List Char) :
    lcp (x :: xs) (y :: ys) = if x = y then lcp xs ys + 1 else 0 := rfl

theorem lcp_le_left : ∀ (xs ys : List Char), lcp xs ys ≤ xs.length := by
  intro xs
  induction xs with
  | nil => intro ys; rw [lcp_nil_left]; exact Nat.zero_le _
  | cons x xs ih =>
      intro ys
      cases ys with
      | nil => rw [lcp_nil_right]; exact Nat.zero_le _
      | cons y ys =>
          rw [lcp_cons_cons]
          by_cases hxy : x = y
          · rw [if_pos hxy]
            simpa using ih ys
          · rw [if_neg hxy]
            exact Nat.zero_le _

theorem lcp_take : ∀ (xs ys : List Char),
    xs.take (lcp xs ys) = ys.take (lcp xs ys) := by
  intro xs
  induction xs with
  | nil => intro ys; rw [lcp_nil_left]; simp
  | cons x xs ih =>
      intro ys
      cases ys with
      | nil => rw [lcp_nil_right]; simp
      | cons y ys =>
          rw [lcp_cons_cons]
          by_cases hxy : x = y
          · rw [if_pos hxy]
            subst hxy
            simpa using ih ys
          · rw [if_neg hxy]
            simp

theorem lcp_ge_common : ∀ (p u v : List Char),
    p.length ≤ lcp (p ++ u) (p ++ v) := by
  intro p
  induction p with
  | nil => intro u v; exact Nat.zero_le _
  | cons a p ih =>
      intro u v
      rw [List.cons_append, List.cons_append, lcp_cons_cons, if_pos rfl]
      simpa using ih u v

theorem substr_nil (l : List Char) : Substr [] l :=
  ⟨[], l, by simp⟩

theorem le_listMax_of_mem : ∀ {l : List Nat} {x : Nat}, x ∈ l → x ≤ listMax l := by
  intro l
  induction l with
  | nil => intro x hx; cases hx
  | cons a l ih =>
      intro x hx
      rcases List.mem_cons.mp hx with rfl | hx
      · exact le_max_left _ _
      · exact le_trans (ih hx) (le_max_right _ _)

theorem listMax_eq_zero_or_mem : ∀ (l : List Nat), listMax l = 0 ∨ listMax l ∈ l := by
  intro l
  induction l with
  | nil => exact Or.inl rfl
  | cons a l ih =>
      rcases Nat.le_total a (listMax l) with h | h
      · rw [show listMax (a :: l) = max a (listMax l) from rfl, Nat.max_eq_right h]
        rcases ih with h0 | hm
        · exact Or.inl h0
        · exact Or.inr (List.mem_cons_of_mem a hm)
      · rw [show listMax (a :: l) = max a (listMax l) from rfl, Nat.max_eq_left h]
        exact Or.inr (List.mem_cons_self a l)

theorem lcpRow_head (u : List Char) :
    ∀ (bs w : List Char), lcpRow u w bs = lcp u w :: (lcpRow u w bs).tail := by
  intro bs w
  cases bs <;> simp [lcpRow]

/-- The inner loop of `overlap` maps the row for `u` to (the tail of) the
row for `c :: u`. -/
theorem overlapRow_lcpRow (c : Char) (u : List Char) :
    ∀ (bs w : List Char),
      overlapRow c bs (lcpRow u w bs) = (lcpRow (c :: u) w bs).tail := by
  intro bs
  induction bs with
  | nil => intro w; simp [lcpRow, overlapRow]
  | cons b bs ih =>
      intro w
      rw [show lcpRow u w (b :: bs) = lcp u w :: lcpRow u (b :: w) bs from rfl]
      rw [show overlapRow c (b :: bs) (lcp u w :: lcpRow u (b :: w) bs) =
            (if c = b then lcp u w + 1 else 0) ::
              overlapRow c bs (lcpRow u (b :: w) bs) from rfl]
      rw [ih (b :: w)]
      rw [show lcpRow (c :: u) w (b :: bs) =
            lcp (c :: u) w :: lcpRow (c :: u) (b :: w) bs from rfl]
      rw [List.tail_cons]
      rw [← lcp_cons_cons c b u w]
      exact (lcpRow_head (c :: u) bs (b :: w)).symm

theorem lcpRow_nil_left : ∀ (bs w : List Char),
    lcpRow [] w bs = List.replicate (bs.length + 1) 0 := by
  intro bs
  induction bs with
  | nil => intro w; simp [lcpRow, lcp_nil_left]
  | cons b bs ih =>
      intro w
      rw [show lcpRow [] w (b :: bs) = lcp [] w :: lcpRow [] (b :: w) bs from rfl]
      rw [lcp_nil_left, ih (b :: w)]
      rfl

/-- The outer loop of `overlap` accumulates the maximum of all rows. -/
theorem overlapLoop_bestOver (bs : List Char) :
    ∀ (as_ u : List Char) (best : Nat),
      overlapLoop bs as_ (lcpRow u [] bs) best = max best (bestOver bs u as_) := by
  intro as_
  induction as_ with
  | nil => intro u best; simp [overlapLoop, bestOver]
  | cons c as_ ih =>
      intro u best
      rw [show overlapLoop bs (c :: as_) (lcpRow u [] bs) best =
            overlapLoop bs as_ (0 :: overlapRow c bs (lcpRow u [] bs))
              (max best (listMax (overlapRow c bs (lcpRow u [] bs)))) from rfl]
      rw [overlapRow_lcpRow c u bs []]
      have h0 : lcp (c :: u) [] = 0 := lcp_nil_right _
      have hrow : (0 : Nat) :: (lcpRow (c :: u) [] bs).tail = lcpRow (c :: u) [] bs := by
        conv_rhs => rw [lcpRow_head (c :: u) bs [], h0]
      rw [hrow, ih (c :: u) _]
      rw [show bestOver bs u (c :: as_) =
            max (listMax ((lcpRow (c :: u) [] bs).tail)) (bestOver bs (c :: u) as_)
          from rfl]
      rw [Nat.max_assoc]

/-- The code of `overlap`, on non-empty inputs, returns the running best
described by `bestOver`. -/
theorem overlap_eq_bestOver (a b : String) (ha : a.length ≠ 0) (hb : b.length ≠ 0) :
    overlap a b = .ok (bestOver b.data [] a.data) := by
  unfold overlap
  rw [if_neg (by push_neg; exact ⟨ha, hb⟩)]
  congr 1
  have hinit : List.replicate (b.length + 1) 0 = lcpRow [] [] b.data :=
    (lcpRow_nil_left b.data []).symm
  rw [hinit, overlapLoop_bestOver b.data a.data [] 0]
  simp

/-- Every value in a row is a longest-common-prefix value for a slice of
`bs`. -/
theorem lcpRow_mem (U : List Char) :
    ∀ (bs w : List Char) (v : Nat), v ∈ lcpRow U w bs →
      ∃ pq rest, bs = pq ++ rest ∧ v = lcp U (pq.reverse ++ w) := by
  intro bs
  induction bs with
  | nil =>
      intro w v hv
      rcases List.mem_singleton.mp hv with rfl
      exact ⟨[], [], by simp, by simp⟩
  | cons b bs ih =>
      intro w v hv
      rcases List.mem_cons.mp hv with rfl | hv
      · exact ⟨[], b :: bs, by simp, by simp⟩
      · rcases ih (b :: w) v hv with ⟨pq, rest, hbs, hval⟩
        refine ⟨b :: pq, rest, by rw [List.cons_append, hbs], ?_⟩
        rw [hval, List.reverse_cons, List.append_assoc]
        rfl

/-- Conversely, every slice of `bs` contributes an entry to the row. -/
theorem lcpRow_mem_take (U : List Char) :
    ∀ (bs w : List Char) (j : Nat), j ≤ bs.length →
      lcp U ((bs.take j).reverse ++ w) ∈ lcpRow U w bs := by
  intro bs
  induction bs with
  | nil =>
      intro w j hj
      have hj0 : j = 0 := by simpa using hj
      subst hj0
      simp [lcpRow]
  | cons b bs ih =>
      intro w j hj
      cases j with
      | zero =>
          rw [show ((b :: bs).take 0).reverse ++ w = w from by simp]
          rw [lcpRow_head U (b :: bs) w]
          exact List.mem_cons_self _ _
      | succ j =>
          have hj2 : j ≤ bs.length := by simpa using hj
          have hmem := ih (b :: w) j hj2
          rw [show lcpRow U w (b :: bs) = lcp U w :: lcpRow U (b :: w) bs from rfl]
          refine List.mem_cons_of_mem _ ?_
          rw [show (b :: bs).take (j + 1) = b :: bs.take j from rfl]
          rw [List.reverse_cons, List.append_assoc]
          exact hmem

/-- Slices starting after at least one consumed character land in the tail
of the row (column 0 is not inspected by the running best). -/
theorem lcpRow_mem_take_tail (U : List Char) :
    ∀ (bs w : List Char) (j : Nat), 1 ≤ j → j ≤ bs.length →
      lcp U ((bs.take j).reverse ++ w) ∈ (lcpRow U w bs).tail := by
  intro bs w j hj1 hj2
  cases bs with
  | nil => simp at hj2; omega
  | cons b bs =>
      cases j with
      | zero => omega
      | succ j =>
          rw [show lcpRow U w (b :: bs) = lcp U w :: lcpRow U (b :: w) bs from rfl,
            List.tail_cons]
          rw [show (b :: bs).take (j + 1) = b :: bs.take j from rfl]
          rw [List.reverse_cons, List.append_assoc]
          exact lcpRow_mem_take U bs (b :: w) j (by simpa using hj2)

/-- Existence half of C6: the running best is realised by a common
substring. -/
theorem bestOver_ex (bs : List Char) :
    ∀ (as_ u : List Char),
      ∃ s : List Char, s.length = bestOver bs u as_ ∧
        Substr s (u.reverse ++ as_) ∧ Substr s bs := by
  intro as_
  induction as_ with
  | nil =>
      intro u
      exact ⟨[], rfl, substr_nil _, substr_nil _⟩
  | cons c as_ ih =>
      intro u
      rw [show bestOver bs u (c :: as_) =
            max (listMax ((lcpRow (c :: u) [] bs).tail)) (bestOver bs (c :: u) as_)
          from rfl]
      rcases Nat.le_total (listMax ((lcpRow (c :: u) [] bs).tail))
          (bestOver bs (c :: u) as_) with h | h
      · rw [Nat.max_eq_right h]
        rcases ih (c :: u) with ⟨s, hlen, hsa, hsb⟩
        refine ⟨s, hlen, ?_, hsb⟩
        rw [List.reverse_cons, List.append_assoc] at hsa
        simpa using hsa
      · rw [Nat.max_eq_left h]
        rcases listMax_eq_zero_or_mem ((lcpRow (c :: u) [] bs).tail) with h0 | hm
        · rw [h0]
          exact ⟨[], rfl, substr_nil _, substr_nil _⟩
        · rcases lcpRow_mem (c :: u) bs []
              (listMax ((lcpRow (c :: u) [] bs).tail))
              (List.mem_of_mem_tail hm) with ⟨pq, rest, hbs, hval⟩
          set T := listMax ((lcpRow (c :: u) [] bs).tail) with hT
          set W := pq.reverse ++ ([] : List Char) with hW
          refine ⟨((c :: u).take T).reverse, ?_, ?_, ?_⟩
          · have hle : T ≤ (c :: u).length := by
              rw [hval]; exact lcp_le_left _ _
            rw [List.length_reverse, List.length_take]
            exact Nat.min_eq_left hle
          · refine ⟨((c :: u).drop T).reverse, as_, ?_⟩
            have hsplit : (c :: u).take T ++ (c :: u).drop T = c :: u :=
              List.take_append_drop T (c :: u)
            have hrev : u.reverse ++ [c] = ((c :: u).drop T).reverse ++ ((c :: u).take T).reverse := by
              rw [← List.reverse_append, hsplit, List.reverse_cons]
            rw [List.append_cons u.reverse c as_, hrev, List.append_assoc]
          · have htake : (c :: u).take T = W.take T := by
              rw [hval, hW]; exact lcp_take (c :: u) (pq.reverse ++ [])
            have hWrev : W.reverse = pq := by
              rw [hW]; simp
            refine ⟨(W.drop T).reverse, rest, ?_⟩
            have hsplit : W.take T ++ W.drop T = W := List.take_append_drop T W
            have hpq : pq = (W.drop T).reverse ++ (W.take T).reverse := by
              rw [← List.reverse_append, hsplit, hWrev]
            rw [hbs, hpq, htake, List.append_assoc]

/-- A row reached by consuming `p ++ [c]` from the input is dominated by
the running best. -/
theorem bestOver_ge_row (bs : List Char) :
    ∀ (p as_ u : List Char) (c : Char) (rest : List Char),
      as_ = p ++ c :: rest →
      listMax ((lcpRow (c :: (p.reverse ++ u)) [] bs).tail) ≤ bestOver bs u as_ := by
  intro p
  induction p with
  | nil =>
      intro as_ u c rest heq
      subst heq
      simp only [List.nil_append, List.reverse_nil]
      rw [show bestOver bs u (c :: rest) =
            max (listMax ((lcpRow (c :: u) [] bs).tail)) (bestOver bs (c :: u) rest)
          from rfl]
      exact le_max_left _ _
  | cons d p ih =>
      intro as_ u c rest heq
      subst heq
      rw [show (d :: p) ++ c :: rest = d :: (p ++ c :: rest) from rfl]
      rw [show bestOver bs u (d :: (p ++ c :: rest)) =
            max (listMax ((lcpRow (d :: u) [] bs).tail))
              (bestOver bs (d :: u) (p ++ c :: rest)) from rfl]
      refine le_trans ?_ (le_max_right _ _)
      have := ih (p ++ c :: rest) (d :: u) c rest rfl
      rw [show p.reverse ++ (d :: u) = (d :: p).reverse ++ u from by
        rw [List.reverse_cons, List.append_assoc]; rfl] at this
      exact this

/-- Upper-bound half of C6: every common substring is at most the running
best. -/
theorem bestOver_ub (bs as_ : List Char) :
    ∀ s : List Char, Substr s as_ → Substr s bs → s.length ≤ bestOver bs [] as_ := by
  intro s hsa hsb
  rcases List.eq_nil_or_concat s with rfl | ⟨s2, c2, rfl⟩
  · simp
  · rw [List.concat_eq_append] at hsa hsb ⊢
    rcases hsa with ⟨p, q, hpq⟩
    rcases hsb with ⟨p2, q2, hpq2⟩
    -- the row for the consumed part p ++ s2 ++ [c2] of the input
    have hshape : as_ = (p ++ s2) ++ c2 :: q := by
      rw [hpq]
      simp
    have hrow := bestOver_ge_row bs (p ++ s2) as_ [] c2 q hshape
    -- the entry for the slice p2 ++ (s2 ++ [c2]) of bs
    have hj : (p2 ++ (s2 ++ [c2])).length ≤ bs.length := by
      rw [hpq2]
      simp
    have hj1 : 1 ≤ (p2 ++ (s2 ++ [c2])).length := by
      simp
      omega
    have hbs2 : bs = (p2 ++ (s2 ++ [c2])) ++ q2 := by
      rw [hpq2]
      simp
    have htake : bs.take (p2 ++ (s2 ++ [c2])).length = p2 ++ (s2 ++ [c2]) := by
      rw [hbs2]
      exact List.take_left _ _
    have hmem := lcpRow_mem_take_tail (c2 :: ((p ++ s2).reverse ++ []))
      bs [] (p2 ++ (s2 ++ [c2])).length hj1 hj
    rw [htake] at hmem
    have hentry : (s2 ++ [c2]).length ≤
        lcp (c2 :: ((p ++ s2).reverse ++ []))
          ((p2 ++ (s2 ++ [c2])).reverse ++ []) := by
      have h1 : c2 :: ((p ++ s2).reverse ++ []) =
          (s2 ++ [c2]).reverse ++ p.reverse := by
        simp
      have h2 : (p2 ++ (s2 ++ [c2])).reverse ++ ([] : List Char) =
          (s2 ++ [c2]).reverse ++ p2.reverse := by
        simp
      rw [h1, h2]
      simpa using lcp_ge_common (s2 ++ [c2]).reverse p.reverse p2.reverse
    calc (s2 ++ [c2]).length
        ≤ lcp (c2 :: ((p ++ s2).reverse ++ []))
            ((p2 ++ (s2 ++ [c2])).reverse ++ []) := hentry
      _ ≤ listMax ((lcpRow (c2 :: ((p ++ s2).reverse ++ [])) [] bs).tail) :=
          le_listMax_of_mem hmem
      _ ≤ bestOver bs [] as_ := hrow

/-- C6: on non-empty strings, `overlap` returns the length of the longest
common contiguous substring of its arguments. -/
theorem overlap_is_longest_common_substring (a b : String)
    (ha : a.length ≠ 0) (hb : b.length ≠ 0) :
    ∃ k, overlap a b = .ok k ∧
      (∃ s : List Char, s.length = k ∧ Substr s a.data ∧ Substr s b.data) ∧
      (∀ s : List Char, Substr s a.data → Substr s b.data → s.length ≤ k) := by
  refine ⟨bestOver b.data [] a.data, overlap_eq_bestOver a b ha hb, ?_, ?_⟩
  · rcases bestOver_ex b.data a.data [] with ⟨s, hlen, hsa, hsb⟩
    exact ⟨s, hlen, by simpa using hsa, hsb⟩
  · exact bestOver_ub b.data a.data

/-- C6 witness: the concrete pair ab, bc has longest common substring b of
length 1. -/
theorem overlap_is_longest_common_substring_witness :
    ∃ k, overlap "ab" "bc" = .ok k ∧
      (∃ s : List Char, s.length = k ∧ Substr s ("ab").data ∧ Substr s ("bc").data) ∧
      (∀ s : List Char, Substr s ("ab").data → Substr s ("bc").data → s.length ≤ k) :=
  overlap_is_longest_common_substring "ab" "bc" (by decide) (by decide)

/-! ### The ranking development (claims C5 and C2) -/

/-- Inverting a successful run of `scoreEntry`. -/
theorem scoreEntry_ok {q o : String} {e : Entry} (h : scoreEntry q o = .ok e) :
    e.name = o ∧ e.sanitized = sanitize o ∧
      overlap q (sanitize o) = .ok e.overlap ∧
      distance q (sanitize o) = .ok e.distance := by
  cases hov : overlap q (sanitize o) with
  | error er =>
      have h2 : (Except.error er : Except String Entry) = .ok e := by
        rw [← h]
        unfold scoreEntry
        rw [hov]
      exact Except.noConfusion h2
  | ok ov =>
      cases hd : distance q (sanitize o) with
      | error er =>
          have h2 : (Except.error er : Except String Entry) = .ok e := by
            rw [← h]
            unfold scoreEntry
            rw [hov, hd]
          exact Except.noConfusion h2
      | ok d =>
          have h2 : (Except.ok (Entry.mk o (sanitize o) ov d) : Except String Entry) =
              .ok e := by
            rw [← h]
            unfold scoreEntry
            rw [hov, hd]
          injection h2 with h3
          subst h3
          exact ⟨rfl, rfl, rfl, rfl⟩

/-- Inverting a successful run of the scoring loop: every produced entry
carries its option, the sanitized option, and the scores of the raw query
against the sanitized option. -/
theorem scoreAll_mem {q : String} : ∀ {opts : List String} {scored : List Entry},
    scoreAll q opts = .ok scored → ∀ e ∈ scored,
      e.name ∈ opts ∧ e.sanitized = sanitize e.name ∧
      overlap q e.sanitized = .ok e.overlap ∧
      distance q e.sanitized = .ok e.distance := by
  intro opts
  induction opts with
  | nil =>
      intro scored h e he
      have h2 : (Except.ok [] : Except String (List Entry)) = .ok scored := h
      injection h2 with h3
      subst h3
      cases he
  | cons o os ih =>
      intro scored h e he
      cases hse : scoreEntry q o with
      | error er =>
          have h2 : (Except.error er : Except String (List Entry)) = .ok scored := by
            rw [← h]
            unfold scoreAll
            rw [hse]
          exact Except.noConfusion h2
      | ok r =>
          cases hsa : scoreAll q os with
          | error er =>
              have h2 : (Except.error er : Except String (List Entry)) = .ok scored := by
                rw [← h]
                unfold scoreAll
                rw [hse, hsa]
              exact Except.noConfusion h2
          | ok rs =>
              have h2 : (Except.ok (r :: rs) : Except String (List Entry)) = .ok scored := by
                rw [← h]
                unfold scoreAll
                rw [hse, hsa]
              injection h2 with h3
              subst h3
              rcases List.mem_cons.mp he with rfl | he2
              · rcases scoreEntry_ok hse with ⟨hn, hs, ho, hd⟩
                refine ⟨?_, ?_, ?_, ?_⟩
                · rw [hn]; exact List.mem_cons_self _ _
                · rw [hs, hn]
                · rw [hs]; exact ho
                · rw [hs]; exact hd
              · rcases ih hsa e he2 with ⟨h1, h2, h3, h4⟩
                exact ⟨List.mem_cons_of_mem _ h1, h2, h3, h4⟩

/-- Inverting a successful run of `fuzzy_search`. -/
theorem fuzzy_search_ok {opts : List String} {q : String} {c : Bool} {res : List Entry}
    (h : fuzzy_search opts q = .ok (c, res)) :
    ∃ scored, scoreAll q opts = .ok scored ∧ res = rank scored ∧
      c = conclusiveOf (rank scored) := by
  cases hsa : scoreAll q opts with
  | error er =>
      have h2 : (Except.error er : Except String (Bool × List Entry)) = .ok (c, res) := by
        rw [← h]
        unfold fuzzy_search
        rw [hsa]
      exact Except.noConfusion h2
  | ok results =>
      have h2 : (Except.ok (conclusiveOf (rank results), rank results) :
          Except String (Bool × List Entry)) = .ok (c, res) := by
        rw [← h]
        unfold fuzzy_search
        rw [hsa]
      injection h2 with h3
      injection h3 with h4 h5
      exact ⟨results, rfl, h5.symm, h4.symm⟩

/-- Inserting into a lexicographically sorted list: a stable insertion of an
element that the secondary order `S` places before everything present
preserves the combined order (strictly smaller under `le`, or tied and
before under `S`). -/
theorem pairwise_lex_orderedInsert {α : Type} (le : α → α → Prop) [DecidableRel le]
    (S : α → α → Prop) (total : ∀ a b, le a b ∨ le b a)
    (htrans : ∀ {a b c2}, le a b → le b c2 → le a c2) (a : α) :
    ∀ (s : List α), s.Pairwise (fun x y => le x y ∧ (le y x → S x y)) →
      (∀ y ∈ s, S a y) →
      (List.orderedInsert le a s).Pairwise (fun x y => le x y ∧ (le y x → S x y)) := by
  intro s
  induction s with
  | nil =>
      intro _ _
      simp
  | cons b s ih =>
      intro hp ha
      rcases List.pairwise_cons.mp hp with ⟨hb, hs⟩
      by_cases hab : le a b
      · rw [List.orderedInsert_of_le le s hab]
        refine List.pairwise_cons.mpr ⟨?_, hp⟩
        intro z hz
        rcases List.mem_cons.mp hz with rfl | hz
        · exact ⟨hab, fun _ => ha z (List.mem_cons_self _ _)⟩
        · exact ⟨htrans hab (hb z hz).1, fun _ => ha z (List.mem_cons_of_mem _ hz)⟩
      · rw [List.orderedInsert, if_neg hab]
        refine List.pairwise_cons.mpr
          ⟨?_, ih hs (fun y hy => ha y (List.mem_cons_of_mem _ hy))⟩
        intro z hz
        rcases (List.mem_orderedInsert le).mp hz with rfl | hz
        · rcases total z b with h1 | h1
          · exact absurd h1 hab
          · exact ⟨h1, fun hab2 => absurd hab2 hab⟩
        · exact hb z hz

/-- A stable sort refines any order `S` the input already has into the
lexicographic combination: the output is sorted by `le`, with `S` breaking
the ties of `le`. -/
theorem pairwise_lex_insertionSort {α : Type} (le : α → α → Prop) [DecidableRel le]
    (S : α → α → Prop) (total : ∀ a b, le a b ∨ le b a)
    (htrans : ∀ {a b c2}, le a b → le b c2 → le a c2) :
    ∀ (l : List α), l.Pairwise S →
      (List.insertionSort le l).Pairwise (fun x y => le x y ∧ (le y x → S x y)) := by
  intro l
  induction l with
  | nil =>
      intro _
      simp
  | cons a l ih =>
      intro hp
      rcases List.pairwise_cons.mp hp with ⟨ha, hl⟩
      rw [List.insertionSort]
      refine pairwise_lex_orderedInsert le S total htrans a _ (ih hl) ?_
      intro y hy
      exact ha y ((List.mem_insertionSort le).mp hy)

theorem withIdx_fst_ge : ∀ (l : List Entry) (n : Nat) (p : Nat × Entry),
    p ∈ withIdx n l → n ≤ p.1 := by
  intro l
  induction l with
  | nil => intro n p hp; cases hp
  | cons e l ih =>
      intro n p hp
      rcases List.mem_cons.mp hp with rfl | hp
      · exact le_rfl
      · exact le_trans (Nat.le_succ n) (ih (n + 1) p hp)

theorem withIdx_pairwise : ∀ (l : List Entry) (n : Nat),
    (withIdx n l).Pairwise (fun x y => x.1 < y.1) := by
  intro l
  induction l with
  | nil => intro n; exact List.Pairwise.nil
  | cons e l ih =>
      intro n
      refine List.pairwise_cons.mpr ⟨?_, ih (n + 1)⟩
      intro p hp
      have h := withIdx_fst_ge l (n + 1) p hp
      show n < p.1
      omega

theorem withIdx_map_snd : ∀ (l : List Entry) (n : Nat),
    (withIdx n l).map Prod.snd = l := by
  intro l
  induction l with
  | nil => intro n; rfl
  | cons e l ih =>
      intro n
      rw [show withIdx n (e :: l) = (n, e) :: withIdx (n + 1) l from rfl,
        List.map_cons, ih (n + 1)]

/-- The plain pipeline of `fuzzy_search` is the projection of the
position-tagged pipeline. -/
theorem rank_eq_rankIdx (l : List Entry) :
    rank l = (rankIdx (withIdx 0 l)).map Prod.snd := by
  unfold rank rankIdx
  rw [List.map_insertionSort (fun x y : Nat × Entry => y.2.overlap ≤ x.2.overlap)
    (fun p q : Entry => q.overlap ≤ p.overlap) Prod.snd _ (fun a _ b _ => Iff.rfl)]
  rw [List.map_insertionSort (fun x y : Nat × Entry => x.2.distance ≤ y.2.distance)
    (fun p q : Entry => p.distance ≤ q.distance) Prod.snd _ (fun a _ b _ => Iff.rfl)]
  rw [withIdx_map_snd l 0]

/-- C5: a successful `fuzzy_search` returns the scored candidates sorted by
overlap descending, then distance ascending; on the position-tagged
pipeline (whose projection the returned list is) full ties additionally
keep their input order, which is the stability of the two sorts. -/
theorem fuzzy_search_ranked (opts : List String) (q : String) (c : Bool)
    (res : List Entry) (h : fuzzy_search opts q = .ok (c, res)) :
    ∃ scored, scoreAll q opts = .ok scored ∧
      res = (rankIdx (withIdx 0 scored)).map Prod.snd ∧
      (rankIdx (withIdx 0 scored)).Pairwise RankedOrder ∧
      res.Pairwise (fun x y => y.overlap ≤ x.overlap ∧
        (x.overlap ≤ y.overlap → x.distance ≤ y.distance)) := by
  rcases fuzzy_search_ok h with ⟨scored, hs, hres, hc⟩
  have h0 : (withIdx 0 scored).Pairwise (fun x y => x.1 < y.1) :=
    withIdx_pairwise scored 0
  have h1 := pairwise_lex_insertionSort
    (fun x y : Nat × Entry => x.2.distance ≤ y.2.distance)
    (fun x y => x.1 < y.1)
    (fun a b => Nat.le_total _ _) (fun hab hbc => le_trans hab hbc)
    (withIdx 0 scored) h0
  have h2 := pairwise_lex_insertionSort
    (fun x y : Nat × Entry => y.2.overlap ≤ x.2.overlap)
    (fun x y => x.2.distance ≤ y.2.distance ∧
      (y.2.distance ≤ x.2.distance → x.1 < y.1))
    (fun a b => Nat.le_total _ _) (fun hab hbc => le_trans hbc hab)
    (List.insertionSort (fun x y : Nat × Entry => x.2.distance ≤ y.2.distance)
      (withIdx 0 scored)) h1
  have hpair : (rankIdx (withIdx 0 scored)).Pairwise RankedOrder := h2
  have hres2 : res = (rankIdx (withIdx 0 scored)).map Prod.snd := by
    rw [hres, rank_eq_rankIdx scored]
  refine ⟨scored, hs, hres2, hpair, ?_⟩
  rw [hres2]
  refine List.Pairwise.map Prod.snd ?_ hpair
  intro a b hab
  rcases hab with ⟨hov, hrest⟩
  exact ⟨hov, fun hov2 => (hrest hov2).1⟩

/-- C5 witness: two candidates with equal overlap are returned ordered by
distance, and the tagged pipeline satisfies the full ranking order. -/
theorem fuzzy_search_ranked_witness :
    ∃ scored, scoreAll "b" ["ab", "b"] = .ok scored ∧
      [Entry.mk "b" "b" 1 0, Entry.mk "ab" "ab" 1 1] =
        (rankIdx (withIdx 0 scored)).map Prod.snd ∧
      (rankIdx (withIdx 0 scored)).Pairwise RankedOrder ∧
      ([Entry.mk "b" "b" 1 0, Entry.mk "ab" "ab" 1 1]).Pairwise
        (fun x y => y.overlap ≤ x.overlap ∧
          (x.overlap ≤ y.overlap → x.distance ≤ y.distance)) :=
  fuzzy_search_ranked ["ab", "b"] "b" false
    [Entry.mk "b" "b" 1 0, Entry.mk "ab" "ab" 1 1] rfl

/-- C2 amended: `fuzzy_search` sanitizes every candidate label but not the
query; each returned entry is the raw query scored against the sanitized
label of one of the options. -/
theorem fuzzy_search_scores_raw_query (opts : List String) (q : String)
    (c : Bool) (res : List Entry) (h : fuzzy_search opts q = .ok (c, res)) :
    ∀ e ∈ res, e.name ∈ opts ∧ e.sanitized = sanitize e.name ∧
      overlap q e.sanitized = .ok e.overlap ∧
      distance q e.sanitized = .ok e.distance := by
  rcases fuzzy_search_ok h with ⟨scored, hs, hres, hc⟩
  intro e he
  have he2 : e ∈ scored := by
    rw [hres] at he
    unfold rank at he
    exact (List.mem_insertionSort _).mp ((List.mem_insertionSort _).mp he)
  exact scoreAll_mem hs e he2

/-- C2 amended, witness: the single candidate a against the raw query A is
scored with overlap 0 and distance 1 (the raw query, not its
sanitization, is compared). -/
theorem fuzzy_search_scores_raw_query_witness :
    (Entry.mk "a" "a" 0 1).name ∈ ["a"] ∧
    (Entry.mk "a" "a" 0 1).sanitized = sanitize (Entry.mk "a" "a" 0 1).name ∧
    overlap "A" (Entry.mk "a" "a" 0 1).sanitized = .ok (Entry.mk "a" "a" 0 1).overlap ∧
    distance "A" (Entry.mk "a" "a" 0 1).sanitized = .ok (Entry.mk "a" "a" 0 1).distance :=
  fuzzy_search_scores_raw_query ["a"] "A" true [Entry.mk "a" "a" 0 1] rfl
    (Entry.mk "a" "a" 0 1) (List.mem_singleton.mpr rfl)

end Dotobot
